import Mathlib

/-!
Shallow embedding of the `rust-tictactoe` repository (src/game.rs, src/mcts.rs)
and verification of its specification claims.

Modelling conventions:
* Rust `i32` indices become `Int`; `usize` casts become `Int.toNat`.
* The 3x3 `fields` array becomes a list of list rows; all accesses the code
  performs are bounds-checked first, so `getD`-style access is exact on every
  executed path.
* Floating point UCT values (`f64`) are idealised as real numbers; the
  `NEG_INFINITY` starting accumulator of `best_child` is modelled in `EReal`.
* `rand::thread_rng().choose` is modelled by an arbitrary stream
  `rng : Nat -> Nat` of indices; `choose` picks index `rng k % length`.
* Rust panics (`expect`, `assert!`) are modelled as `none` / an explicit
  `panic` constructor; loops are modelled with explicit fuel.
-/

set_option maxRecDepth 8000

namespace TicTacToe

/-- Player marker, from `game.rs`. -/
inductive Player where
  | X : Player
  | O : Player
deriving DecidableEq, Repr

/-- `Player::opponent`. -/
def Player.opponent : Player → Player
  | Player.X => Player.O
  | Player.O => Player.X

/-- The game board, from `game.rs`: a 3x3 grid of optional markers plus the
player to move next. -/
structure Board where
  fields : List (List (Option Player))
  next_player : Player
deriving DecidableEq, Repr

/-- `Board::new`. -/
def Board.new (first_player : Player) : Board :=
  { fields := [[none, none, none], [none, none, none], [none, none, none]],
    next_player := first_player }

/-- Cell access `self.fields[x][y]` (all source accesses are in bounds). -/
def Board.cell (b : Board) (x y : Nat) : Option Player :=
  (b.fields.getD x []).getD y none

/-- The `has!(player, x, y)` macro of `Board::get_winner`. -/
def Board.has (b : Board) (p : Player) (x y : Nat) : Bool :=
  b.cell x y = some p

/-- The body of `Board::get_winner` for a single player.  The source loops
`for row in 0..2` and `for col in 0..2`, so only rows 0,1 and columns 0,1 are
checked, plus the two diagonals. -/
def Board.playerWins (b : Board) (p : Player) : Bool :=
  (b.has p 0 0 && b.has p 0 1 && b.has p 0 2) ||
  (b.has p 1 0 && b.has p 1 1 && b.has p 1 2) ||
  (b.has p 0 0 && b.has p 1 0 && b.has p 2 0) ||
  (b.has p 0 1 && b.has p 1 1 && b.has p 2 1) ||
  (b.has p 0 0 && b.has p 1 1 && b.has p 2 2) ||
  (b.has p 0 2 && b.has p 1 1 && b.has p 2 0)

/-- `Board::get_winner`: player `X` is checked before `O`. -/
def Board.get_winner (b : Board) : Option Player :=
  if b.playerWins Player.X then some Player.X
  else if b.playerWins Player.O then some Player.O
  else none

/-- `Board::is_ended`: a winner exists, or all cells are used (a draw). -/
def Board.is_ended (b : Board) : Bool :=
  match b.get_winner with
  | some _ => true
  | none => b.fields.all fun row => row.all fun cell => cell.isSome

/-- `Board::is_legal_action`. -/
def Board.is_legal_action (b : Board) (a : Int × Int) : Bool :=
  if a.1 < 0 ∨ a.1 > 2 ∨ a.2 < 0 ∨ a.2 > 2 then false
  else (b.cell a.1.toNat a.2.toNat).isNone

/-- `Board::perform_action`: place the next player's marker and hand the turn
to the opponent.  (The source `debug_assert!`s legality; every caller passes a
legal action.) -/
def Board.perform_action (b : Board) (a : Int × Int) : Board :=
  { fields := b.fields.set a.1.toNat
      ((b.fields.getD a.1.toNat []).set a.2.toNat (some b.next_player)),
    next_player := b.next_player.opponent }

/-- `Board::get_actions`: empty when ended, else all legal `(row, col)` pairs
in row-major order. -/
def Board.get_actions (b : Board) : List (Int × Int) :=
  if b.is_ended then [] else
    (List.range 3).flatMap fun (row : Nat) =>
      (List.range 3).filterMap fun (col : Nat) =>
        if b.is_legal_action ((row : Int), (col : Int))
        then some ((row : Int), (col : Int)) else none

/-- `Board::get_reward`: `some` exactly at ended boards; +1 win, -1 loss,
0 draw for the given player. -/
def Board.get_reward (b : Board) (p : Player) : Option Int :=
  if b.is_ended then
    match b.get_winner with
    | some w => if w = p then some 1 else some (-1)
    | none => some 0
  else none

/-- Well-formed board shape: three rows of three cells.  `Board::new` has this
shape and `perform_action` preserves it. -/
def Board.WF (b : Board) : Prop :=
  b.fields.length = 3 ∧ ∀ r ∈ b.fields, r.length = 3

instance (b : Board) : Decidable b.WF := by
  unfold Board.WF; infer_instance

/-- Number of empty cells; the rollout loop strictly decreases it. -/
def Board.emptyCount (b : Board) : Nat :=
  (b.fields.map fun row => row.countP fun c => c.isNone).sum

/-! ### The MCTS tree, from `mcts.rs` -/

/-- `NodeState` from `mcts.rs`. -/
inductive NodeState where
  | Leaf : NodeState
  | FullyExpanded : NodeState
  | Expandable : NodeState
deriving DecidableEq, Repr

/-- `Node` from `mcts.rs`.  (An inductive rather than a structure because
`children` is recursive.) -/
inductive Node where
  | mk (us : Player) (board : Board) (children : List Node) (runs : Int)
      (wins : Int) (action : Option (Int × Int)) (state : NodeState) : Node

/-- Field `us` (the tree's fixed perspective player). -/
def Node.us : Node → Player
  | Node.mk u _ _ _ _ _ _ => u

/-- Field `board`. -/
def Node.board : Node → Board
  | Node.mk _ b _ _ _ _ _ => b

/-- Field `children`. -/
def Node.children : Node → List Node
  | Node.mk _ _ c _ _ _ _ => c

/-- Field `runs` (visit count). -/
def Node.runs : Node → Int
  | Node.mk _ _ _ r _ _ _ => r

/-- Field `wins` (win score). -/
def Node.wins : Node → Int
  | Node.mk _ _ _ _ w _ _ => w

/-- Field `action` (the originating action). -/
def Node.action : Node → Option (Int × Int)
  | Node.mk _ _ _ _ _ a _ => a

/-- Field `state` (expansion status). -/
def Node.state : Node → NodeState
  | Node.mk _ _ _ _ _ _ s => s

/-- `self.state = s` assignment. -/
def Node.setState (s : NodeState) : Node → Node
  | Node.mk u b c r w a _ => Node.mk u b c r w a s

/-- `self.children = cs` assignment. -/
def Node.setChildren (cs : List Node) : Node → Node
  | Node.mk u b _ r w a s => Node.mk u b cs r w a s

/-- `self.runs = r; self.wins = w` assignment (used by `simulate`). -/
def Node.setStats (r w : Int) : Node → Node
  | Node.mk u b c _ _ a s => Node.mk u b c r w a s

/-- The backpropagation step `self.runs += 1; self.wins += reward`. -/
def Node.backprop (reward : Int) : Node → Node
  | Node.mk u b c r w a s => Node.mk u b c (r + 1) (w + reward) a s

/-- `rand::thread_rng().choose(&l)` with the random draw `rng k`:
`none` exactly on the empty list. -/
def chooseL (rng : Nat → Nat) (k : Nat) (l : List α) : Option α :=
  l[rng k % l.length]?

/-- The UCT value computed in `Node::best_child`:
`w / n + (2. * n_total.ln() / n).sqrt()`, idealised over the reals. -/
noncomputable def uctValue (nTotal : Int) (c : Node) : ℝ :=
  (c.wins : ℝ) / (c.runs : ℝ) + Real.sqrt (2 * Real.log (nTotal : ℝ) / (c.runs : ℝ))

open scoped Classical in
/-- The fold of `Node::best_child`: walk the children keeping the first child
whose value strictly exceeds the best seen so far, starting from
`NEG_INFINITY` (modelled as `⊥ : EReal`) and no child.  Also records the
child's position, which models the `&mut` reference the source returns. -/
noncomputable def bestChildAux (v : Node → ℝ) :
    List Node → Nat → EReal → Option (Nat × Node) → Option (Nat × Node)
  | [], _, _, best => best
  | c :: cs, i, bestValue, best =>
    if bestValue < (v c : EReal) then bestChildAux v cs (i + 1) ((v c : EReal)) (some (i, c))
    else bestChildAux v cs (i + 1) bestValue best

/-- `Node::best_child`, returning the child together with its index. -/
noncomputable def Node.bestChildE (n : Node) : Option (Nat × Node) :=
  bestChildAux (uctValue n.runs) n.children 0 ⊥ none

/-- `Node::best_child` (the node the returned reference points at). -/
noncomputable def Node.best_child (n : Node) : Option Node :=
  n.bestChildE.map (fun ic => ic.2)

/-- Result of `Node::expand`: either the terminal case (sets `Leaf`, returns
`None`), a successful expansion (child appended, `Some(child)` returned), or a
panic of the `.expect("actions is empty")` / `.expect("Child has no action")`
calls. -/
inductive ExpandResult where
  | terminal (n' : Node) : ExpandResult
  | expanded (n' : Node) : ExpandResult
  | panic : ExpandResult

/-- The `actions.remove_item(&child.action.expect(..))` loop of
`Node::expand`: erase each child's action from the action list in child
order, `none` if some child has no action (a panic in the source). -/
def removeExplored : List Node → List (Int × Int) → Option (List (Int × Int))
  | [], acts => some acts
  | c :: cs, acts =>
    match c.action with
    | none => none
    | some a => removeExplored cs (acts.erase a)

/-- `Node::expand`.  When exactly one untried action remains the node is
marked `FullyExpanded` before the new child (whose state is the successor
board, statistics zero, perspective inherited) is appended. -/
def Node.expand (rng : Nat → Nat) (k : Nat) (n : Node) : ExpandResult :=
  if n.board.get_actions = [] then ExpandResult.terminal (n.setState NodeState.Leaf)
  else
    match removeExplored n.children n.board.get_actions with
    | none => ExpandResult.panic
    | some untried =>
      match chooseL rng k untried with
      | none => ExpandResult.panic
      | some a =>
        ExpandResult.expanded
          ((if untried.length = 1 then n.setState NodeState.FullyExpanded else n).setChildren
            (n.children ++
              [Node.mk n.us (n.board.perform_action a) [] 0 0 (some a) NodeState.Expandable]))

/-- One iteration body of the rollout loop of `Node::simulate`:
`if !actions.is_empty() { choose and perform an action }`. -/
def rolloutStep (rng : Nat → Nat) (k : Nat) (b : Board) : Board :=
  match chooseL rng k b.get_actions with
  | some a => b.perform_action a
  | none => b

/-- The rollout loop of `Node::simulate`: if actions remain pick one and
perform it, stop as soon as the board has a reward.  Runs on explicit fuel;
also returns the final (terminal) rollout board, a local variable in the
source. -/
def rollout (rng : Nat → Nat) (us : Player) : Nat → Nat → Board → Option (Int × Board)
  | 0, _, _ => none
  | fuel + 1, k, b =>
    match (rolloutStep rng k b).get_reward us with
    | some r => some (r, rolloutStep rng k b)
    | none => rollout rng us fuel (k + 1) (rolloutStep rng k b)

/-- `Node::simulate`: assert fresh statistics, roll out, then record
`runs = 1, wins = reward`.  `none` models the assertion panic or rollout fuel
exhaustion (the rollout always terminates, see `C8`). -/
def Node.simulate (rng : Nat → Nat) (fuel k : Nat) (n : Node) : Option (Int × Node) :=
  if n.runs = 0 ∧ n.wins = 0 then
    (rollout rng n.us fuel k n.board).map fun rb => (rb.1, n.setStats 1 rb.1)
  else none

/-- `Node::perform_mcts`: selection, expansion, simulation, backpropagation.
`current_reward` is `Option` in the source and is returned where an `i32` is
expected; we read those early returns as unwrapping it (the board is terminal
whenever they run).  `none` models a panic or fuel exhaustion. -/
noncomputable def Node.perform_mcts (rng : Nat → Nat) : Nat → Nat → Node → Option (Int × Node)
  | 0, _, _ => none
  | fuel + 1, k, n =>
    match n.state with
    | NodeState.Leaf => (n.board.get_reward n.us).map fun r => (r, n)
    | NodeState.FullyExpanded =>
      match n.bestChildE with
      | none => none
      | some ic =>
        match Node.perform_mcts rng fuel k ic.2 with
        | none => none
        | some rc =>
          some (rc.1, (n.setChildren (n.children.set ic.1 rc.2)).backprop rc.1)
    | NodeState.Expandable =>
      match n.expand rng k with
      | ExpandResult.panic => none
      | ExpandResult.terminal n1 => (n.board.get_reward n.us).map fun r => (r, n1)
      | ExpandResult.expanded n1 =>
        match n1.children[n1.children.length - 1]? with
        | none => none
        | some c =>
          match c.simulate rng fuel (k + 1) with
          | none => none
          | some rc =>
            some (rc.1,
              (n1.setChildren (n1.children.set (n1.children.length - 1) rc.2)).backprop rc.1)

/-- `Node::finished`. -/
def Node.finished (n : Node) : Bool :=
  decide (n.state ≠ NodeState.Expandable) &&
    n.children.all fun c => decide (c.state ≠ NodeState.Expandable)

/-- The `MCTS` search wrapper from `mcts.rs`. -/
structure MCTS where
  root : Node
  us : Player

/-- `MCTS::new`. -/
def MCTS.new (player : Player) (first_action : Bool) : MCTS :=
  { root := Node.mk player
      (Board.new (if first_action then player else player.opponent))
      [] 0 0 none NodeState.Expandable,
    us := player }

/-- `MCTS::get_action`: the best child's action.  The source maps with
`.expect("Best child without action")`; the `bind` makes that panic `none`
(it never fires on reachable trees, whose children all carry actions). -/
noncomputable def MCTS.get_action (m : MCTS) : Option (Int × Int) :=
  m.root.best_child.bind Node.action

/-- `MCTS::run`: one search iteration unless the tree is finished. -/
noncomputable def MCTS.run (rng : Nat → Nat) (fuel k : Nat) (m : MCTS) : Option MCTS :=
  if m.root.finished then some m
  else (m.root.perform_mcts rng fuel k).map fun rn => { m with root := rn.2 }

/-- The child scan of `MCTS::perform_action`: index of the first child whose
action (`.expect("Child without action")`) equals `a`; `none` models both
panics (`Child without action`, `No child with action to be performed`). -/
def findActionIdx : List Node → (Int × Int) → Option Nat
  | [], _ => none
  | c :: cs, a =>
    match c.action with
    | none => none
    | some a' => if a' = a then some 0 else (findActionIdx cs a).map (· + 1)

/-- `MCTS::perform_action`: the matching child becomes the new root, all
siblings are discarded. -/
def MCTS.perform_action (m : MCTS) (a : Int × Int) : Option MCTS :=
  (findActionIdx m.root.children a).bind fun i =>
    (m.root.children[i]?).map fun c => { m with root := c }

/-- Tree states reachable through `new`, `run` and `perform_action`
(`commitAction`). -/
inductive Reachable : MCTS → Prop where
  | new (p : Player) (fa : Bool) : Reachable (MCTS.new p fa)
  | run (m m' : MCTS) (rng : Nat → Nat) (fuel k : Nat) :
      Reachable m → MCTS.run rng fuel k m = some m' → Reachable m'
  | commit (m m' : MCTS) (a : Int × Int) :
      Reachable m → MCTS.perform_action m a = some m' → Reachable m'

/-! ### Concrete executions used as witnesses and counterexamples

`rng0` always draws index 0, so every `choose` picks the first element.
Starting from `MCTS.new Player.X true`, alternating `run` (which expands the
root's first untried action) and `perform_action` (committing that action)
plays out X(0,0), O(0,1), X(0,2), O(1,0), X(1,1), O(1,2), X(2,0); after the
seventh commit X has completed the (0,2),(1,1),(2,0) diagonal, so the root of
`t7` holds a terminal board while its expansion status is still
`Expandable`. -/

/-- The all-zeros random stream: `choose` always picks the first element. -/
def rng0 : Nat → Nat := fun _ => 0

/-- Fresh search tree for X moving first. -/
def m0 : MCTS := MCTS.new Player.X true

/-- One search iteration from `m0`. -/
noncomputable def s1 : MCTS := (MCTS.run rng0 20 0 m0).getD m0

/-- Commit X(0,0). -/
noncomputable def t1 : MCTS := (MCTS.perform_action s1 (0, 0)).getD m0

/-- One search iteration from `t1`. -/
noncomputable def s2 : MCTS := (MCTS.run rng0 20 0 t1).getD m0

/-- Commit O(0,1). -/
noncomputable def t2 : MCTS := (MCTS.perform_action s2 (0, 1)).getD m0

/-- One search iteration from `t2`. -/
noncomputable def s3 : MCTS := (MCTS.run rng0 20 0 t2).getD m0

/-- Commit X(0,2). -/
noncomputable def t3 : MCTS := (MCTS.perform_action s3 (0, 2)).getD m0

/-- One search iteration from `t3`. -/
noncomputable def s4 : MCTS := (MCTS.run rng0 20 0 t3).getD m0

/-- Commit O(1,0). -/
noncomputable def t4 : MCTS := (MCTS.perform_action s4 (1, 0)).getD m0

/-- One search iteration from `t4`. -/
noncomputable def s5 : MCTS := (MCTS.run rng0 20 0 t4).getD m0

/-- Commit X(1,1). -/
noncomputable def t5 : MCTS := (MCTS.perform_action s5 (1, 1)).getD m0

/-- One search iteration from `t5`. -/
noncomputable def s6 : MCTS := (MCTS.run rng0 20 0 t5).getD m0

/-- Commit O(1,2). -/
noncomputable def t6 : MCTS := (MCTS.perform_action s6 (1, 2)).getD m0

/-- One search iteration from `t6`. -/
noncomputable def s7 : MCTS := (MCTS.run rng0 20 0 t6).getD m0

/-- Commit X(2,0); the new root's board is terminal (X won) but its state is
still `Expandable`. -/
noncomputable def t7 : MCTS := (MCTS.perform_action s7 (2, 0)).getD m0

/-- Reward of one further `perform_mcts` call on `t7`'s root. -/
noncomputable def t7r : Int :=
  ((Node.perform_mcts rng0 20 0 t7.root).map fun rn => rn.1).getD 0

/-- Resulting node of one further `perform_mcts` call on `t7`'s root. -/
noncomputable def t7n : Node :=
  ((Node.perform_mcts rng0 20 0 t7.root).map fun rn => rn.2).getD t7.root

/-- A fully played board in which X owns all of row index 2 while no line the
source checks is complete: `get_winner`'s loops stop at row/column index 1. -/
def rowTwoBoard : Board :=
  { fields := [[some Player.X, some Player.O, some Player.O],
               [some Player.O, some Player.O, some Player.X],
               [some Player.X, some Player.X, some Player.X]],
    next_player := Player.O }

/-- A board with a single empty cell `(2,2)` and no winner. -/
def oneLeftBoard : Board :=
  { fields := [[some Player.X, some Player.O, some Player.X],
               [some Player.O, some Player.X, some Player.O],
               [some Player.O, some Player.X, none]],
    next_player := Player.X }

/-- A child node already representing the only legal action of
`oneLeftBoard`. -/
def oneLeftChild : Node :=
  Node.mk Player.X (oneLeftBoard.perform_action (2, 2)) [] 1 0
    (some (2, 2)) NodeState.Expandable

/-- An `Expandable` node whose board still has a legal action, but whose
children already represent every legal action: calling `expand` on it
panics. -/
def allTriedNode : Node :=
  Node.mk Player.X oneLeftBoard [oneLeftChild] 1 0 none NodeState.Expandable

/-- First child of the `best_child` witness node (value 1 + sqrt-term). -/
def wc1 : Node :=
  Node.mk Player.X (Board.new Player.X) [] 1 1 (some (0, 0)) NodeState.Expandable

/-- Second child of the `best_child` witness node (value 0 + sqrt-term). -/
def wc2 : Node :=
  Node.mk Player.X (Board.new Player.X) [] 1 0 (some (0, 1)) NodeState.Expandable

/-- A fully-expanded node with two visited children, used to exercise
`best_child`. -/
def wN : Node :=
  Node.mk Player.X (Board.new Player.X) [wc1, wc2] 2 1 none NodeState.FullyExpanded

/-- A finished tree (root `Leaf`, no children): `run` must be a no-op. -/
def mFinished : MCTS :=
  { root := Node.mk Player.X (Board.new Player.X) [] 0 0 none NodeState.Leaf,
    us := Player.X }

/-! ### Basic lemmas about node field updates -/

@[simp] lemma Node.us_mk (u b c r w a s) : (Node.mk u b c r w a s).us = u := rfl
@[simp] lemma Node.board_mk (u b c r w a s) : (Node.mk u b c r w a s).board = b := rfl
@[simp] lemma Node.children_mk (u b c r w a s) : (Node.mk u b c r w a s).children = c := rfl
@[simp] lemma Node.runs_mk (u b c r w a s) : (Node.mk u b c r w a s).runs = r := rfl
@[simp] lemma Node.wins_mk (u b c r w a s) : (Node.mk u b c r w a s).wins = w := rfl
@[simp] lemma Node.action_mk (u b c r w a s) : (Node.mk u b c r w a s).action = a := rfl
@[simp] lemma Node.state_mk (u b c r w a s) : (Node.mk u b c r w a s).state = s := rfl

@[simp] lemma Node.us_setState (n : Node) (s) : (n.setState s).us = n.us := by
  cases n; rfl
@[simp] lemma Node.board_setState (n : Node) (s) : (n.setState s).board = n.board := by
  cases n; rfl
@[simp] lemma Node.children_setState (n : Node) (s) :
    (n.setState s).children = n.children := by cases n; rfl
@[simp] lemma Node.runs_setState (n : Node) (s) : (n.setState s).runs = n.runs := by
  cases n; rfl
@[simp] lemma Node.wins_setState (n : Node) (s) : (n.setState s).wins = n.wins := by
  cases n; rfl
@[simp] lemma Node.action_setState (n : Node) (s) : (n.setState s).action = n.action := by
  cases n; rfl
@[simp] lemma Node.state_setState (n : Node) (s) : (n.setState s).state = s := by
  cases n; rfl

@[simp] lemma Node.us_setChildren (n : Node) (cs) : (n.setChildren cs).us = n.us := by
  cases n; rfl
@[simp] lemma Node.board_setChildren (n : Node) (cs) :
    (n.setChildren cs).board = n.board := by cases n; rfl
@[simp] lemma Node.children_setChildren (n : Node) (cs) :
    (n.setChildren cs).children = cs := by cases n; rfl
@[simp] lemma Node.runs_setChildren (n : Node) (cs) : (n.setChildren cs).runs = n.runs := by
  cases n; rfl
@[simp] lemma Node.wins_setChildren (n : Node) (cs) : (n.setChildren cs).wins = n.wins := by
  cases n; rfl
@[simp] lemma Node.action_setChildren (n : Node) (cs) :
    (n.setChildren cs).action = n.action := by cases n; rfl
@[simp] lemma Node.state_setChildren (n : Node) (cs) :
    (n.setChildren cs).state = n.state := by cases n; rfl

@[simp] lemma Node.us_setStats (n : Node) (r w) : (n.setStats r w).us = n.us := by
  cases n; rfl
@[simp] lemma Node.board_setStats (n : Node) (r w) : (n.setStats r w).board = n.board := by
  cases n; rfl
@[simp] lemma Node.children_setStats (n : Node) (r w) :
    (n.setStats r w).children = n.children := by cases n; rfl
@[simp] lemma Node.runs_setStats (n : Node) (r w) : (n.setStats r w).runs = r := by
  cases n; rfl
@[simp] lemma Node.wins_setStats (n : Node) (r w) : (n.setStats r w).wins = w := by
  cases n; rfl
@[simp] lemma Node.action_setStats (n : Node) (r w) :
    (n.setStats r w).action = n.action := by cases n; rfl
@[simp] lemma Node.state_setStats (n : Node) (r w) :
    (n.setStats r w).state = n.state := by cases n; rfl

@[simp] lemma Node.us_backprop (n : Node) (r) : (n.backprop r).us = n.us := by
  cases n; rfl
@[simp] lemma Node.board_backprop (n : Node) (r) : (n.backprop r).board = n.board := by
  cases n; rfl
@[simp] lemma Node.children_backprop (n : Node) (r) :
    (n.backprop r).children = n.children := by cases n; rfl
@[simp] lemma Node.runs_backprop (n : Node) (r) : (n.backprop r).runs = n.runs + 1 := by
  cases n; rfl
@[simp] lemma Node.wins_backprop (n : Node) (r) : (n.backprop r).wins = n.wins + r := by
  cases n; rfl
@[simp] lemma Node.action_backprop (n : Node) (r) : (n.backprop r).action = n.action := by
  cases n; rfl
@[simp] lemma Node.state_backprop (n : Node) (r) : (n.backprop r).state = n.state := by
  cases n; rfl

/-! ### Board lemmas -/

lemma getD_eq_getElem (l : List α) (i : Nat) (d : α) (h : i < l.length) :
    l.getD i d = l[i] := by
  rw [List.getD_eq_getElem?_getD, List.getElem?_eq_getElem h]; rfl

lemma Board.WF_new (p : Player) : (Board.new p).WF := by
  refine ⟨rfl, ?_⟩
  intro r hr
  simp only [Board.new, List.mem_cons, List.not_mem_nil, or_false] at hr
  rcases hr with h | h | h <;> subst h <;> rfl

lemma Board.legal_spec (b : Board) (a : Int × Int) (h : b.is_legal_action a = true) :
    a.1.toNat < 3 ∧ a.2.toNat < 3 ∧ b.cell a.1.toNat a.2.toNat = none := by
  unfold Board.is_legal_action at h
  split at h
  · cases h
  · rename_i hb
    push_neg at hb
    obtain ⟨h1, h2, h3, h4⟩ := hb
    exact ⟨by omega, by omega, Option.isNone_iff_eq_none.mp h⟩

lemma Board.legal_of_mem_actions (b : Board) (a : Int × Int) (h : a ∈ b.get_actions) :
    b.is_legal_action a = true := by
  unfold Board.get_actions at h
  split at h
  · cases h
  · simp only [List.mem_flatMap, List.mem_filterMap, List.mem_range] at h
    obtain ⟨row, _, col, _, hc⟩ := h
    split at hc
    · rename_i hl; cases hc; exact hl
    · cases hc

lemma Board.actions_ne_nil (b : Board) (hwf : b.WF) (h : b.is_ended = false) :
    b.get_actions ≠ [] := by
  obtain ⟨hlen, hrows⟩ := hwf
  have hform : (b.fields.all fun row => row.all fun cell => cell.isSome) = false := by
    unfold Board.is_ended at h
    rcases hgw : b.get_winner with _ | w
    · rw [hgw] at h; exact h
    · rw [hgw] at h; exact Bool.noConfusion h
  rw [List.all_eq_false] at hform
  obtain ⟨row, hrowmem, hrowall⟩ := hform
  have hrowall' : row.all (fun cell => cell.isSome) = false := by
    revert hrowall; cases row.all fun cell => cell.isSome <;> simp
  rw [List.all_eq_false] at hrowall'
  obtain ⟨cell, hcellmem, hcellnone⟩ := hrowall'
  obtain ⟨i, hi, hieq⟩ := List.mem_iff_getElem.mp hrowmem
  obtain ⟨j, hj, hjeq⟩ := List.mem_iff_getElem.mp hcellmem
  have hi3 : i < 3 := hlen ▸ hi
  have hj3 : j < 3 := by
    have := hrows row hrowmem
    omega
  have hj2 : j < (b.fields[i]).length := by rw [hieq]; exact hj
  have hcell : (b.fields[i])[j] = none := by
    have : b.fields[i] = row := hieq
    rw [Option.not_isSome_iff_eq_none] at hcellnone
    simp only [this, hjeq, hcellnone]
  have hleg : b.is_legal_action ((i : Int), (j : Int)) = true := by
    unfold Board.is_legal_action
    rw [if_neg]
    · unfold Board.cell
      simp only [Int.toNat_natCast]
      rw [getD_eq_getElem b.fields i [] (by omega)]
      rw [getD_eq_getElem (b.fields[i]) j none (by rw [hieq]; exact hj)]
      simp only [hcell]
      rfl
    · push_neg
      refine ⟨by omega, by omega, by omega, by omega⟩
  intro hnil
  have hmem : ((i : Int), (j : Int)) ∈ b.get_actions := by
    unfold Board.get_actions
    rw [if_neg (by simp [h])]
    simp only [List.mem_flatMap, List.mem_filterMap, List.mem_range]
    exact ⟨i, hi3, j, hj3, by rw [if_pos hleg]⟩
  rw [hnil] at hmem
  cases hmem

lemma Board.actions_nil_iff (b : Board) (hwf : b.WF) :
    b.get_actions = [] ↔ b.is_ended = true := by
  constructor
  · intro hnil
    by_contra hne
    have hend : b.is_ended = false := by
      revert hne; cases b.is_ended <;> simp
    exact b.actions_ne_nil hwf hend hnil
  · intro h
    unfold Board.get_actions
    rw [if_pos h]

lemma Board.get_reward_isSome (b : Board) (p : Player) (h : b.is_ended = true) :
    ∃ r, b.get_reward p = some r := by
  unfold Board.get_reward
  rw [if_pos h]
  rcases hgw : b.get_winner with _ | w
  · exact ⟨0, rfl⟩
  · by_cases hwp : w = p
    · exact ⟨1, by simp [hwp]⟩
    · exact ⟨-1, by simp [hwp]⟩

lemma Board.get_reward_none_iff (b : Board) (p : Player) :
    b.get_reward p = none ↔ b.is_ended = false := by
  constructor
  · intro h
    by_contra hne
    have hend : b.is_ended = true := by
      revert hne; cases b.is_ended <;> simp
    obtain ⟨r, hr⟩ := b.get_reward_isSome p hend
    rw [h] at hr
    cases hr
  · intro h
    unfold Board.get_reward
    rw [if_neg (by simp [h])]

lemma Board.get_reward_some_ended (b : Board) (p : Player) (r : Int)
    (h : b.get_reward p = some r) : b.is_ended = true := by
  by_contra hne
  have hend : b.is_ended = false := by
    revert hne; cases b.is_ended <;> simp
  rw [(b.get_reward_none_iff p).mpr hend] at h
  cases h

lemma Board.WF_perform_action (b : Board) (a : Int × Int) (hwf : b.WF)
    (hl : b.is_legal_action a = true) : (b.perform_action a).WF := by
  obtain ⟨hx, hy, _⟩ := b.legal_spec a hl
  obtain ⟨hlen, hrows⟩ := hwf
  constructor
  · simp only [Board.perform_action, List.length_set]
    exact hlen
  · intro r hr
    simp only [Board.perform_action] at hr
    rcases List.mem_or_eq_of_mem_set hr with hmem | heq
    · exact hrows r hmem
    · subst heq
      rw [List.length_set]
      rw [getD_eq_getElem _ _ _ (by omega)]
      exact hrows _ (List.getElem_mem (by omega))

lemma countP_set_aux (p : α → Bool) (v : α) (l : List α) :
    ∀ i : Nat, ∀ h : i < l.length,
    (l.set i v).countP p + (if p l[i] then 1 else 0) =
      l.countP p + (if p v then 1 else 0) := by
  induction l with
  | nil => intro i h; simp at h
  | cons x xs ih =>
    intro i h
    cases i with
    | zero =>
      simp only [List.set_cons_zero, List.countP_cons, List.getElem_cons_zero]
      omega
    | succ j =>
      simp only [List.set_cons_succ, List.countP_cons, List.getElem_cons_succ]
      have := ih j (by simpa using h)
      omega

lemma sum_map_set (f : α → Nat) (v : α) (l : List α) :
    ∀ i : Nat, ∀ h : i < l.length,
    ((l.set i v).map f).sum + f l[i] = (l.map f).sum + f v := by
  induction l with
  | nil => intro i h; simp at h
  | cons x xs ih =>
    intro i h
    cases i with
    | zero =>
      simp only [List.set_cons_zero, List.map_cons, List.sum_cons, List.getElem_cons_zero]
      omega
    | succ j =>
      simp only [List.set_cons_succ, List.map_cons, List.sum_cons, List.getElem_cons_succ]
      have := ih j (by simpa using h)
      omega

lemma Board.emptyCount_le (b : Board) (hwf : b.WF) : b.emptyCount ≤ 9 := by
  obtain ⟨hlen, hrows⟩ := hwf
  obtain ⟨r0, r1, r2, hf⟩ := List.length_eq_three.mp hlen
  have m0 : r0 ∈ b.fields := by rw [hf]; simp
  have m1 : r1 ∈ b.fields := by rw [hf]; simp
  have m2 : r2 ∈ b.fields := by rw [hf]; simp
  have c0 := List.countP_le_length (fun c : Option Player => c.isNone) (l := r0)
  have c1 := List.countP_le_length (fun c : Option Player => c.isNone) (l := r1)
  have c2 := List.countP_le_length (fun c : Option Player => c.isNone) (l := r2)
  rw [hrows r0 m0] at c0
  rw [hrows r1 m1] at c1
  rw [hrows r2 m2] at c2
  unfold Board.emptyCount
  rw [hf]
  simp only [List.map_cons, List.map_nil, List.sum_cons, List.sum_nil]
  omega

lemma Board.emptyCount_perform_action (b : Board) (a : Int × Int) (hwf : b.WF)
    (hl : b.is_legal_action a = true) :
    (b.perform_action a).emptyCount + 1 = b.emptyCount := by
  obtain ⟨hx3, hy3, hcell⟩ := b.legal_spec a hl
  obtain ⟨hlen, hrows⟩ := hwf
  have hx : a.1.toNat < b.fields.length := by omega
  have hrow : b.fields.getD a.1.toNat [] = b.fields[a.1.toNat] :=
    getD_eq_getElem _ _ _ hx
  have hylen : a.2.toNat < (b.fields[a.1.toNat]).length := by
    rw [hrows _ (List.getElem_mem hx)]; omega
  have hcy : (b.fields[a.1.toNat])[a.2.toNat] = none := by
    unfold Board.cell at hcell
    rw [hrow, getD_eq_getElem _ _ _ hylen] at hcell
    exact hcell
  have hs := sum_map_set (fun row => row.countP fun c => c.isNone)
    ((b.fields.getD a.1.toNat []).set a.2.toNat (some b.next_player)) b.fields a.1.toNat hx
  rw [hrow] at hs
  have hc := countP_set_aux (fun c : Option Player => c.isNone) (some b.next_player)
    (b.fields[a.1.toNat]) a.2.toNat hylen
  rw [hcy] at hc
  simp at hc
  unfold Board.emptyCount Board.perform_action
  simp only
  rw [hrow]
  omega

/-! ### Rollout termination -/

lemma chooseL_eq_some (rng : Nat → Nat) (k : Nat) (l : List α) (h : l ≠ []) :
    chooseL rng k l =
      some (l.get ⟨rng k % l.length, Nat.mod_lt _ (List.length_pos.mpr h)⟩) := by
  unfold chooseL
  rw [List.getElem?_eq_getElem (Nat.mod_lt _ (List.length_pos.mpr h))]
  rw [List.get_eq_getElem]

lemma chooseL_mem (rng : Nat → Nat) (k : Nat) (l : List α) (a : α)
    (h : chooseL rng k l = some a) : a ∈ l := by
  unfold chooseL at h
  rcases List.getElem?_eq_some_iff.mp h with ⟨hlt, heq⟩
  exact heq ▸ List.getElem_mem hlt

lemma rolloutStep_of_nil (rng : Nat → Nat) (k : Nat) (b : Board)
    (h : b.get_actions = []) : rolloutStep rng k b = b := by
  unfold rolloutStep chooseL
  rw [h]
  rfl

lemma rolloutStep_of_choose (rng : Nat → Nat) (k : Nat) (b : Board) (a : Int × Int)
    (h : chooseL rng k b.get_actions = some a) :
    rolloutStep rng k b = b.perform_action a := by
  unfold rolloutStep
  rw [h]

lemma rollout_succ (rng : Nat → Nat) (us : Player) (fuel k : Nat) (b : Board) :
    rollout rng us (fuel + 1) k b =
      match (rolloutStep rng k b).get_reward us with
      | some r => some (r, rolloutStep rng k b)
      | none => rollout rng us fuel (k + 1) (rolloutStep rng k b) := rfl

lemma rollout_spec (rng : Nat → Nat) (us : Player) :
    ∀ fuel k : Nat, ∀ b : Board, b.WF → b.emptyCount < fuel →
    ∃ (r : Int) (b' : Board), rollout rng us fuel k b = some (r, b') ∧
      b'.get_actions = [] ∧ b'.get_reward us = some r := by
  intro fuel
  induction fuel with
  | zero => intro k b _ h; omega
  | succ f ih =>
    intro k b hwf hcnt
    by_cases hnil : b.get_actions = []
    · have hend : b.is_ended = true := (b.actions_nil_iff hwf).mp hnil
      obtain ⟨r, hr⟩ := b.get_reward_isSome us hend
      refine ⟨r, b, ?_, hnil, hr⟩
      rw [rollout_succ, rolloutStep_of_nil rng k b hnil, hr]
    · have hch := chooseL_eq_some rng k _ hnil
      set a := b.get_actions.get
        ⟨rng k % b.get_actions.length, Nat.mod_lt _ (List.length_pos.mpr hnil)⟩ with ha
      have hmem : a ∈ b.get_actions := List.get_mem _ _ _
      have hleg := b.legal_of_mem_actions a hmem
      have hwf' := b.WF_perform_action a hwf hleg
      have hcnt' := b.emptyCount_perform_action a hwf hleg
      have hstep := rolloutStep_of_choose rng k b a hch
      rcases hrw : (b.perform_action a).get_reward us with _ | r
      · obtain ⟨r, b', h1, h2, h3⟩ := ih (k + 1) (b.perform_action a) hwf' (by omega)
        refine ⟨r, b', ?_, h2, h3⟩
        rw [rollout_succ, hstep, hrw, h1]
      · have hnil' : (b.perform_action a).get_actions = [] :=
          ((b.perform_action a).actions_nil_iff hwf').mpr
            ((b.perform_action a).get_reward_some_ended us r hrw)
        refine ⟨r, b.perform_action a, ?_, hnil', hrw⟩
        rw [rollout_succ, hstep, hrw]

/-- Specification of `Node::simulate` on a fresh node: the rollout terminates
at a terminal board whose reward (from the perspective player) is recorded as
`runs = 1, wins = reward`, and the node's own board is untouched. -/
lemma simulate_spec (rng : Nat → Nat) (fuel k : Nat) (n : Node)
    (hwf : n.board.WF) (hr : n.runs = 0) (hw : n.wins = 0)
    (hfuel : n.board.emptyCount < fuel) :
    ∃ (r : Int) (b' : Board), n.simulate rng fuel k = some (r, n.setStats 1 r) ∧
      b'.get_actions = [] ∧ b'.get_reward n.us = some r := by
  obtain ⟨r, b', h1, h2, h3⟩ := rollout_spec rng n.us fuel k n.board hwf hfuel
  refine ⟨r, b', ?_, h2, h3⟩
  unfold Node.simulate
  rw [if_pos ⟨hr, hw⟩, h1]
  rfl

/-! ### The argmax structure of the `best_child` fold -/

lemma bestChildAux_acc (v : Node → ℝ) :
    ∀ (l : List Node) (i j : Nat) (b : Node),
    ∃ (j' : Nat) (c : Node),
      bestChildAux v l i ((v b : EReal)) (some (j, b)) = some (j', c) ∧
      ((c = b ∧ j' = j ∧ ∀ x ∈ l, v x ≤ v b) ∨
       (∃ l₁ l₂, l = l₁ ++ c :: l₂ ∧ j' = i + l₁.length ∧ v b < v c ∧
         (∀ x ∈ l₁, v x < v c) ∧ (∀ x ∈ l₂, v x ≤ v c))) := by
  intro l
  induction l with
  | nil =>
    intro i j b
    exact ⟨j, b, rfl, Or.inl ⟨rfl, rfl, by simp⟩⟩
  | cons x xs ih =>
    intro i j b
    rw [bestChildAux]
    by_cases hvb : v b < v x
    · rw [if_pos (EReal.coe_lt_coe_iff.mpr hvb)]
      obtain ⟨j', c, heq, hcase⟩ := ih (i + 1) i x
      refine ⟨j', c, heq, Or.inr ?_⟩
      rcases hcase with ⟨hcb, hj, hall⟩ | ⟨l₁, l₂, hl, hj, hlt, h₁, h₂⟩
      · subst hcb; subst hj
        exact ⟨[], xs, rfl, by simp, hvb, by simp, hall⟩
      · refine ⟨x :: l₁, l₂, by rw [hl]; simp, by simp [hj]; omega,
          lt_trans hvb hlt, ?_, h₂⟩
        intro y hy
        rcases List.mem_cons.mp hy with rfl | hy'
        · exact hlt
        · exact h₁ y hy'
    · rw [if_neg (fun hc => hvb (EReal.coe_lt_coe_iff.mp hc))]
      obtain ⟨j', c, heq, hcase⟩ := ih (i + 1) j b
      refine ⟨j', c, heq, ?_⟩
      have hxb : v x ≤ v b := not_lt.mp hvb
      rcases hcase with ⟨hcb, hj, hall⟩ | ⟨l₁, l₂, hl, hj, hlt, h₁, h₂⟩
      · refine Or.inl ⟨hcb, hj, ?_⟩
        intro y hy
        rcases List.mem_cons.mp hy with rfl | hy'
        · exact hxb
        · exact hall y hy'
      · refine Or.inr ⟨x :: l₁, l₂, by rw [hl]; simp, by simp [hj]; omega, hlt, ?_, h₂⟩
        intro y hy
        rcases List.mem_cons.mp hy with rfl | hy'
        · exact lt_of_le_of_lt hxb hlt
        · exact h₁ y hy'

lemma bestChildAux_start (v : Node → ℝ) (l : List Node) (i : Nat) (h : l ≠ []) :
    ∃ (l₁ l₂ : List Node) (c : Node),
      bestChildAux v l i ⊥ none = some (i + l₁.length, c) ∧
      l = l₁ ++ c :: l₂ ∧ (∀ x ∈ l₁, v x < v c) ∧ (∀ x ∈ l₂, v x ≤ v c) := by
  rcases l with _ | ⟨x, xs⟩
  · cases h rfl
  · rw [bestChildAux, if_pos (EReal.bot_lt_coe (v x))]
    obtain ⟨j', c, heq, hcase⟩ := bestChildAux_acc v xs (i + 1) i x
    rcases hcase with ⟨hcb, hj, hall⟩ | ⟨l₁, l₂, hl, hj, hlt, h₁, h₂⟩
    · refine ⟨[], xs, x, ?_, rfl, by simp, hall⟩
      rw [heq]
      simp only [Option.some.injEq, Prod.mk.injEq, List.length_nil]
      exact ⟨by omega, hcb⟩
    · refine ⟨x :: l₁, l₂, c, ?_, by rw [hl]; simp, ?_, h₂⟩
      · rw [heq]
        simp only [Option.some.injEq, Prod.mk.injEq, List.length_cons]
        exact ⟨by omega, by trivial⟩
      · intro y hy
        rcases List.mem_cons.mp hy with rfl | hy'
        · exact hlt
        · exact h₁ y hy'

/-- For a node with children, `best_child`'s fold returns the first child of
maximal UCT value: everything before it is strictly smaller, everything after
it is no larger. -/
lemma bestChildE_spec (n : Node) (h : n.children ≠ []) :
    ∃ (l₁ l₂ : List Node) (c : Node),
      n.bestChildE = some (l₁.length, c) ∧
      n.children = l₁ ++ c :: l₂ ∧
      (∀ x ∈ l₁, uctValue n.runs x < uctValue n.runs c) ∧
      (∀ x ∈ l₂, uctValue n.runs x ≤ uctValue n.runs c) := by
  obtain ⟨l₁, l₂, c, heq, hl, h₁, h₂⟩ :=
    bestChildAux_start (uctValue n.runs) n.children 0 h
  exact ⟨l₁, l₂, c, by simpa using heq, hl, h₁, h₂⟩

lemma bestChildE_nil (n : Node) (h : n.children = []) : n.bestChildE = none := by
  unfold Node.bestChildE
  rw [h]
  rfl

lemma bestChildE_getElem (n : Node) (i : Nat) (c : Node)
    (h : n.bestChildE = some (i, c)) : n.children[i]? = some c := by
  by_cases hnil : n.children = []
  · rw [bestChildE_nil n hnil] at h; cases h
  · obtain ⟨l₁, l₂, c', heq, hl, _, _⟩ := bestChildE_spec n hnil
    rw [heq] at h
    simp only [Option.some.injEq, Prod.mk.injEq] at h
    obtain ⟨hi, hc⟩ := h
    subst hi; subst hc
    rw [hl, List.getElem?_append_right (le_refl _)]
    simp

lemma bestChildE_mem (n : Node) (i : Nat) (c : Node)
    (h : n.bestChildE = some (i, c)) : c ∈ n.children := by
  have := bestChildE_getElem n i c h
  rcases List.getElem?_eq_some_iff.mp this with ⟨hlt, heq⟩
  exact heq ▸ List.getElem_mem hlt

/-! ### Behaviour of `expand` -/

lemma removeExplored_subset : ∀ (children : List Node) (acts u : List (Int × Int)),
    removeExplored children acts = some u → ∀ a ∈ u, a ∈ acts := by
  intro children
  induction children with
  | nil =>
    intro acts u h a ha
    rw [removeExplored] at h
    cases h
    exact ha
  | cons c cs ih =>
    intro acts u h a ha
    rw [removeExplored] at h
    rcases hac : c.action with _ | b <;> rw [hac] at h
    · cases h
    · exact List.mem_of_mem_erase (ih (acts.erase b) u h a ha)

lemma expand_of_nil (rng : Nat → Nat) (k : Nat) (n : Node)
    (h : n.board.get_actions = []) :
    n.expand rng k = ExpandResult.terminal (n.setState NodeState.Leaf) := by
  unfold Node.expand
  rw [if_pos h]

lemma expand_of_all_tried (rng : Nat → Nat) (k : Nat) (n : Node)
    (hre : removeExplored n.children n.board.get_actions = some [])
    (hne : n.board.get_actions ≠ []) :
    n.expand rng k = ExpandResult.panic := by
  unfold Node.expand
  simp only [if_neg hne, hre]
  rfl

lemma expand_of_untried (rng : Nat → Nat) (k : Nat) (n : Node) (u : List (Int × Int))
    (hre : removeExplored n.children n.board.get_actions = some u) (hne : u ≠ []) :
    ∃ a ∈ u, n.expand rng k = ExpandResult.expanded
      ((if u.length = 1 then n.setState NodeState.FullyExpanded else n).setChildren
        (n.children ++
          [Node.mk n.us (n.board.perform_action a) [] 0 0 (some a) NodeState.Expandable])) := by
  have hch := chooseL_eq_some rng k u hne
  set a := u.get ⟨rng k % u.length, Nat.mod_lt _ (List.length_pos.mpr hne)⟩ with ha
  have hmem : a ∈ u := List.get_mem _ _ _
  have hanil : n.board.get_actions ≠ [] := by
    intro hc
    have := removeExplored_subset n.children _ u hre a hmem
    rw [hc] at this
    cases this
  refine ⟨a, hmem, ?_⟩
  unfold Node.expand
  simp only [if_neg hanil, hre, hch]

lemma expand_terminal_inv (rng : Nat → Nat) (k : Nat) (n n1 : Node)
    (h : n.expand rng k = ExpandResult.terminal n1) :
    n.board.get_actions = [] ∧ n1 = n.setState NodeState.Leaf := by
  unfold Node.expand at h
  by_cases hnil : n.board.get_actions = []
  · rw [if_pos hnil] at h
    injection h with h'
    exact ⟨hnil, h'.symm⟩
  · rw [if_neg hnil] at h
    rcases hre : removeExplored n.children n.board.get_actions with _ | u <;>
      simp only [hre] at h
    · cases h
    · rcases hch : chooseL rng k u with _ | a <;> simp only [hch] at h <;> cases h

lemma expand_expanded_inv (rng : Nat → Nat) (k : Nat) (n n1 : Node)
    (h : n.expand rng k = ExpandResult.expanded n1) :
    ∃ u a, n.board.get_actions ≠ [] ∧
      removeExplored n.children n.board.get_actions = some u ∧
      chooseL rng k u = some a ∧
      n1 = (if u.length = 1 then n.setState NodeState.FullyExpanded else n).setChildren
        (n.children ++
          [Node.mk n.us (n.board.perform_action a) [] 0 0 (some a) NodeState.Expandable]) := by
  unfold Node.expand at h
  by_cases hnil : n.board.get_actions = []
  · rw [if_pos hnil] at h
    cases h
  · rw [if_neg hnil] at h
    rcases hre : removeExplored n.children n.board.get_actions with _ | u <;>
      simp only [hre] at h
    · cases h
    · rcases hch : chooseL rng k u with _ | a <;> simp only [hch] at h
      · cases h
      · injection h with h'
        exact ⟨u, a, hnil, rfl, hch, h'.symm⟩

/-! ### Behaviour of `perform_mcts` -/

lemma setChildren_setChildren (n : Node) (cs cs' : List Node) :
    (n.setChildren cs).setChildren cs' = n.setChildren cs' := by
  cases n; rfl

lemma set_append_length (l : List α) (x y : α) :
    (l ++ [x]).set l.length y = l ++ [y] := by
  induction l with
  | nil => rfl
  | cons a as ih => simp [List.set_cons_succ, ih]

lemma perform_mcts_zero (rng : Nat → Nat) (k : Nat) (n : Node) :
    Node.perform_mcts rng 0 k n = none := rfl

lemma perform_mcts_succ (rng : Nat → Nat) (fuel k : Nat) (n : Node) :
    Node.perform_mcts rng (fuel + 1) k n =
      match n.state with
      | NodeState.Leaf => (n.board.get_reward n.us).map fun r => (r, n)
      | NodeState.FullyExpanded =>
        match n.bestChildE with
        | none => none
        | some ic =>
          match Node.perform_mcts rng fuel k ic.2 with
          | none => none
          | some rc =>
            some (rc.1, (n.setChildren (n.children.set ic.1 rc.2)).backprop rc.1)
      | NodeState.Expandable =>
        match n.expand rng k with
        | ExpandResult.panic => none
        | ExpandResult.terminal n1 => (n.board.get_reward n.us).map fun r => (r, n1)
        | ExpandResult.expanded n1 =>
          match n1.children[n1.children.length - 1]? with
          | none => none
          | some c =>
            match c.simulate rng fuel (k + 1) with
            | none => none
            | some rc =>
              some (rc.1,
                (n1.setChildren (n1.children.set (n1.children.length - 1) rc.2)).backprop rc.1)
  := rfl

lemma perform_mcts_leaf (rng : Nat → Nat) (fuel k : Nat) (n : Node)
    (h : n.state = NodeState.Leaf) :
    Node.perform_mcts rng (fuel + 1) k n =
      (n.board.get_reward n.us).map fun r => (r, n) := by
  rw [perform_mcts_succ, h]

lemma perform_mcts_fully (rng : Nat → Nat) (fuel k : Nat) (n : Node)
    (h : n.state = NodeState.FullyExpanded) :
    Node.perform_mcts rng (fuel + 1) k n =
      match n.bestChildE with
      | none => none
      | some ic =>
        match Node.perform_mcts rng fuel k ic.2 with
        | none => none
        | some rc =>
          some (rc.1, (n.setChildren (n.children.set ic.1 rc.2)).backprop rc.1) := by
  rw [perform_mcts_succ, h]

lemma perform_mcts_expandable (rng : Nat → Nat) (fuel k : Nat) (n : Node)
    (h : n.state = NodeState.Expandable) :
    Node.perform_mcts rng (fuel + 1) k n =
      match n.expand rng k with
      | ExpandResult.panic => none
      | ExpandResult.terminal n1 => (n.board.get_reward n.us).map fun r => (r, n1)
      | ExpandResult.expanded n1 =>
        match n1.children[n1.children.length - 1]? with
        | none => none
        | some c =>
          match c.simulate rng fuel (k + 1) with
          | none => none
          | some rc =>
            some (rc.1,
              (n1.setChildren (n1.children.set (n1.children.length - 1) rc.2)).backprop rc.1)
  := by
  rw [perform_mcts_succ, h]

/-- Visit-count bookkeeping of one `perform_mcts` call: the called node's
`runs` is unchanged on the two terminal early returns (`Leaf` state, or
`Expandable` with no legal action, which sets `Leaf`), and grows by exactly
one on every other branch. -/
lemma perform_mcts_runs (rng : Nat → Nat) (fuel k : Nat) (n : Node) (r : Int) (n' : Node)
    (h : Node.perform_mcts rng fuel k n = some (r, n')) :
    n'.runs = if n.state = NodeState.Leaf ∨
        (n.state = NodeState.Expandable ∧ n.board.get_actions = [])
      then n.runs else n.runs + 1 := by
  rcases fuel with _ | f
  · cases h
  · rcases hst : n.state with _ | _ | _
    · -- Leaf
      rw [perform_mcts_leaf rng f k n hst] at h
      rcases hr : n.board.get_reward n.us with _ | rr <;> rw [hr] at h
      · cases h
      · simp only [Option.map_some', Option.some.injEq, Prod.mk.injEq] at h
        obtain ⟨-, rfl⟩ := h
        rw [if_pos (Or.inl rfl)]
    · -- FullyExpanded
      rw [perform_mcts_fully rng f k n hst] at h
      rcases hbc : n.bestChildE with _ | ic <;> simp only [hbc] at h
      · cases h
      · rcases hrec : Node.perform_mcts rng f k ic.2 with _ | rc <;> simp only [hrec] at h
        · cases h
        · simp only [Option.some.injEq, Prod.mk.injEq] at h
          obtain ⟨-, rfl⟩ := h
          rw [if_neg (by simp)]
          simp
    · -- Expandable
      rw [perform_mcts_expandable rng f k n hst] at h
      rcases hexp : n.expand rng k with n1 | n1 | _ <;> simp only [hexp] at h
      · -- terminal
        obtain ⟨hnil, hn1⟩ := expand_terminal_inv rng k n n1 hexp
        rcases hr : n.board.get_reward n.us with _ | rr <;> rw [hr] at h
        · cases h
        · simp only [Option.map_some', Option.some.injEq, Prod.mk.injEq] at h
          obtain ⟨-, rfl⟩ := h
          rw [if_pos (Or.inr ⟨rfl, hnil⟩), hn1]
          simp
      · -- expanded
        obtain ⟨u, a, hanil, hre, hch, hn1⟩ := expand_expanded_inv rng k n n1 hexp
        rcases hge : n1.children[n1.children.length - 1]? with _ | c <;> simp only [hge] at h
        · cases h
        · rcases hsim : c.simulate rng f (k + 1) with _ | rc <;> simp only [hsim] at h
          · cases h
          · simp only [Option.some.injEq, Prod.mk.injEq] at h
            obtain ⟨-, rfl⟩ := h
            rw [if_neg (by simp [hanil])]
            rw [hn1]
            simp only [Node.runs_backprop, Node.runs_setChildren]
            split <;> simp
      · -- panic
        cases h

/-- One `perform_mcts` call never changes the called node's perspective,
board or originating action. -/
lemma perform_mcts_frame (rng : Nat → Nat) :
    ∀ (fuel k : Nat) (n : Node) (r : Int) (n' : Node),
    Node.perform_mcts rng fuel k n = some (r, n') →
    n'.us = n.us ∧ n'.board = n.board ∧ n'.action = n.action := by
  intro fuel
  rcases fuel with _ | f
  · intro k n r n' h; cases h
  · intro k n r n' h
    rcases hst : n.state with _ | _ | _
    · rw [perform_mcts_leaf rng f k n hst] at h
      rcases hr : n.board.get_reward n.us with _ | rr <;> rw [hr] at h
      · cases h
      · simp only [Option.map_some', Option.some.injEq, Prod.mk.injEq] at h
        obtain ⟨-, rfl⟩ := h
        exact ⟨rfl, rfl, rfl⟩
    · rw [perform_mcts_fully rng f k n hst] at h
      rcases hbc : n.bestChildE with _ | ic <;> simp only [hbc] at h
      · cases h
      · rcases hrec : Node.perform_mcts rng f k ic.2 with _ | rc <;> simp only [hrec] at h
        · cases h
        · simp only [Option.some.injEq, Prod.mk.injEq] at h
          obtain ⟨-, rfl⟩ := h
          simp
    · rw [perform_mcts_expandable rng f k n hst] at h
      rcases hexp : n.expand rng k with n1 | n1 | _ <;> simp only [hexp] at h
      · obtain ⟨hnil, hn1⟩ := expand_terminal_inv rng k n n1 hexp
        rcases hr : n.board.get_reward n.us with _ | rr <;> rw [hr] at h
        · cases h
        · simp only [Option.map_some', Option.some.injEq, Prod.mk.injEq] at h
          obtain ⟨-, rfl⟩ := h
          rw [hn1]
          simp
      · obtain ⟨u, a, hanil, hre, hch, hn1⟩ := expand_expanded_inv rng k n n1 hexp
        rcases hge : n1.children[n1.children.length - 1]? with _ | c <;> simp only [hge] at h
        · cases h
        · rcases hsim : c.simulate rng f (k + 1) with _ | rc <;> simp only [hsim] at h
          · cases h
          · simp only [Option.some.injEq, Prod.mk.injEq] at h
            obtain ⟨-, rfl⟩ := h
            rw [hn1]
            split <;> simp
      · cases h

/-- The `Expandable` branch of `perform_mcts` with a non-empty untried set:
one child is appended with statistics `runs = 1, wins = r` for the simulated
reward `r`, and the node itself records exactly one extra visit and that same
reward once. -/
lemma perform_mcts_expand_spec (rng : Nat → Nat) (fuel k : Nat) (n : Node)
    (u : List (Int × Int))
    (hwf : n.board.WF) (hst : n.state = NodeState.Expandable)
    (hre : removeExplored n.children n.board.get_actions = some u) (hne : u ≠ [])
    (hfuel : 10 ≤ fuel) :
    ∃ (r : Int) (a : Int × Int), a ∈ u ∧
      Node.perform_mcts rng fuel k n = some (r,
        ((if u.length = 1 then n.setState NodeState.FullyExpanded else n).setChildren
          (n.children ++
            [Node.mk n.us (n.board.perform_action a) [] 1 r (some a)
              NodeState.Expandable])).backprop r) := by
  obtain ⟨f, rfl⟩ : ∃ f, fuel = f + 1 := ⟨fuel - 1, by omega⟩
  obtain ⟨a, hmem, hexp⟩ := expand_of_untried rng k n u hre hne
  have haction : a ∈ n.board.get_actions :=
    removeExplored_subset n.children _ u hre a hmem
  have hleg := n.board.legal_of_mem_actions a haction
  have hwf' := n.board.WF_perform_action a hwf hleg
  have hcnt : (n.board.perform_action a).emptyCount < f := by
    have h1 := n.board.emptyCount_perform_action a hwf hleg
    have h2 := n.board.emptyCount_le hwf
    omega
  set c0 : Node :=
    Node.mk n.us (n.board.perform_action a) [] 0 0 (some a) NodeState.Expandable with hc0
  obtain ⟨r, b', hsim, -, -⟩ := simulate_spec rng f (k + 1) c0 (by exact hwf') rfl rfl hcnt
  refine ⟨r, a, hmem, ?_⟩
  rw [perform_mcts_expandable rng f k n hst, hexp]
  simp only [Node.children_setChildren, List.length_append, List.length_cons,
    List.length_nil, Nat.zero_add, Nat.add_sub_cancel]
  simp only [List.getElem?_concat_length, hsim]
  simp only [setChildren_setChildren, set_append_length]
  rfl

/-! ### Tree invariants on reachable states -/

/-- A predicate holding at every node of a tree. -/
inductive Node.All (P : Node → Prop) : Node → Prop where
  | mk : ∀ n : Node, P n → (∀ c ∈ n.children, Node.All P c) → Node.All P n

lemma Node.All.self {P : Node → Prop} {n : Node} (h : Node.All P n) : P n := by
  cases h; assumption

lemma Node.All.child {P : Node → Prop} {n : Node} (h : Node.All P n) :
    ∀ c ∈ n.children, Node.All P c := by
  cases h; assumption

/-- Relation between a tree node and one of its children, maintained by
every operation: the child inherits the perspective, carries the legal action
that created it, and holds the corresponding successor board. -/
def ChildOk (p c : Node) : Prop :=
  c.us = p.us ∧ ∃ a, c.action = some a ∧ a ∈ p.board.get_actions ∧
    c.board = p.board.perform_action a

/-- Local invariant of a single node: well-formed board, `Leaf` only at
terminal boards, and every child in the `ChildOk` relation. -/
def NodeOk (n : Node) : Prop :=
  n.board.WF ∧ (n.state = NodeState.Leaf → n.board.get_actions = []) ∧
  ∀ c ∈ n.children, ChildOk n c

/-- Invariant of a whole tree. -/
def WFNode (n : Node) : Prop := Node.All NodeOk n

lemma ChildOk_of_eq_frame (n c c' : Node) (h : ChildOk n c) (hus : c'.us = c.us)
    (hb : c'.board = c.board) (ha : c'.action = c.action) : ChildOk n c' := by
  unfold ChildOk at *
  rw [hus, hb, ha]
  exact h

lemma simulate_frame (rng : Nat → Nat) (fuel k : Nat) (n : Node) (r : Int) (n' : Node)
    (h : n.simulate rng fuel k = some (r, n')) :
    n'.us = n.us ∧ n'.board = n.board ∧ n'.action = n.action := by
  unfold Node.simulate at h
  split at h
  · rcases hro : rollout rng n.us fuel k n.board with _ | rb <;> rw [hro] at h
    · cases h
    · simp only [Option.map_some', Option.some.injEq, Prod.mk.injEq] at h
      obtain ⟨-, rfl⟩ := h
      simp
  · cases h

lemma WFNode_setStats (n : Node) (r w : Int) (h : WFNode n) : WFNode (n.setStats r w) := by
  cases h with
  | mk _ hok hkids =>
    obtain ⟨hbwf, hleaf, hcok⟩ := hok
    refine Node.All.mk _ ⟨by simpa using hbwf, ?_, ?_⟩ (by simpa using hkids)
    · intro hs
      simp only [Node.state_setStats] at hs
      simpa using hleaf hs
    · intro c hc
      simp only [Node.children_setStats] at hc
      have := hcok c hc
      unfold ChildOk at *
      simpa using this

lemma WFNode_simulate (rng : Nat → Nat) (fuel k : Nat) (n : Node) (r : Int) (n' : Node)
    (hwf : WFNode n) (h : n.simulate rng fuel k = some (r, n')) : WFNode n' := by
  unfold Node.simulate at h
  split at h
  · rcases hro : rollout rng n.us fuel k n.board with _ | rb <;> rw [hro] at h
    · cases h
    · simp only [Option.map_some', Option.some.injEq, Prod.mk.injEq] at h
      obtain ⟨-, rfl⟩ := h
      exact WFNode_setStats n 1 rb.1 hwf
  · cases h

lemma WFNode_expand_terminal (rng : Nat → Nat) (k : Nat) (n n1 : Node) (hwf : WFNode n)
    (h : n.expand rng k = ExpandResult.terminal n1) : WFNode n1 := by
  obtain ⟨hnil, hn1⟩ := expand_terminal_inv rng k n n1 h
  subst hn1
  cases hwf with
  | mk _ hok hkids =>
    obtain ⟨hbwf, hleaf, hcok⟩ := hok
    refine Node.All.mk _ ⟨by simpa using hbwf, fun _ => by simpa using hnil, ?_⟩
      (by simpa using hkids)
    intro c hc
    simp only [Node.children_setState] at hc
    have := hcok c hc
    unfold ChildOk at *
    simpa using this

lemma WFNode_expand_expanded (rng : Nat → Nat) (k : Nat) (n n1 : Node) (hwf : WFNode n)
    (h : n.expand rng k = ExpandResult.expanded n1) : WFNode n1 := by
  obtain ⟨u, a, hanil, hre, hch, hn1⟩ := expand_expanded_inv rng k n n1 h
  subst hn1
  have haction : a ∈ n.board.get_actions :=
    removeExplored_subset n.children _ u hre a (chooseL_mem rng k u a hch)
  have hleg := n.board.legal_of_mem_actions a haction
  cases hwf with
  | mk _ hok hkids =>
    obtain ⟨hbwf, hleaf, hcok⟩ := hok
    have hboard :
        ((if u.length = 1 then n.setState NodeState.FullyExpanded else n).setChildren
          (n.children ++
            [Node.mk n.us (n.board.perform_action a) [] 0 0 (some a)
              NodeState.Expandable])).board = n.board := by
      split <;> simp
    refine Node.All.mk _ ⟨?_, ?_, ?_⟩ ?_
    · rw [hboard]; exact hbwf
    · intro hs
      rw [hboard]
      simp only [Node.state_setChildren] at hs
      split at hs
      · simp only [Node.state_setState] at hs
        cases hs
      · exact hleaf hs
    · intro c hc
      have hco : ∀ d : Node, ChildOk n d →
          ChildOk ((if u.length = 1 then n.setState NodeState.FullyExpanded else n).setChildren
            (n.children ++
              [Node.mk n.us (n.board.perform_action a) [] 0 0 (some a)
                NodeState.Expandable])) d := by
        intro d hx
        unfold ChildOk at *
        split <;> simpa using hx
      simp only [Node.children_setChildren] at hc
      rcases List.mem_append.mp hc with hmem | hmem
      · exact hco c (hcok c hmem)
      · simp only [List.mem_singleton] at hmem
        subst hmem
        exact hco _ ⟨rfl, a, rfl, haction, rfl⟩
    · intro c hc
      simp only [Node.children_setChildren] at hc
      rcases List.mem_append.mp hc with hmem | hmem
      · exact hkids c hmem
      · simp only [List.mem_singleton] at hmem
        subst hmem
        refine Node.All.mk _ ⟨n.board.WF_perform_action a hbwf hleg, ?_, ?_⟩ ?_
        · intro hs; cases hs
        · intro c hc; cases hc
        · intro c hc; cases hc

/-- Replacing the child at index `i` by a node with the same perspective,
board and action, then backpropagating, preserves the tree invariant. -/
lemma WFNode_backprop_set (n : Node) (i : Nat) (c c' : Node) (r : Int)
    (hwf : WFNode n) (hget : n.children[i]? = some c) (hwfc' : WFNode c')
    (hus : c'.us = c.us) (hb : c'.board = c.board) (ha : c'.action = c.action) :
    WFNode ((n.setChildren (n.children.set i c')).backprop r) := by
  cases hwf with
  | mk _ hok hkids =>
    obtain ⟨hbwf, hleaf, hcok⟩ := hok
    have hcmem : c ∈ n.children := by
      rcases List.getElem?_eq_some_iff.mp hget with ⟨hlt, heq⟩
      exact heq ▸ List.getElem_mem hlt
    refine Node.All.mk _ ⟨?_, ?_, ?_⟩ ?_
    · simpa using hbwf
    · intro hs
      simp only [Node.state_backprop, Node.state_setChildren] at hs
      simpa using hleaf hs
    · intro d hd
      simp only [Node.children_backprop, Node.children_setChildren] at hd
      have hco : ∀ e : Node, ChildOk n e →
          ChildOk ((n.setChildren (n.children.set i c')).backprop r) e := by
        intro e hx
        unfold ChildOk at *
        simpa using hx
      rcases List.mem_or_eq_of_mem_set hd with hmem | rfl
      · exact hco d (hcok d hmem)
      · exact hco d (ChildOk_of_eq_frame n c d (hcok c hcmem) hus hb ha)
    · intro d hd
      simp only [Node.children_backprop, Node.children_setChildren] at hd
      rcases List.mem_or_eq_of_mem_set hd with hmem | rfl
      · exact hkids d hmem
      · exact hwfc'

/-- `perform_mcts` preserves the tree invariant. -/
lemma WFNode_perform_mcts (rng : Nat → Nat) :
    ∀ (fuel k : Nat) (n : Node) (r : Int) (n' : Node), WFNode n →
    Node.perform_mcts rng fuel k n = some (r, n') → WFNode n' := by
  intro fuel
  induction fuel with
  | zero => intro k n r n' _ h; cases h
  | succ f ih =>
    intro k n r n' hwf h
    rcases hst : n.state with _ | _ | _
    · -- Leaf: unchanged
      rw [perform_mcts_leaf rng f k n hst] at h
      rcases hr : n.board.get_reward n.us with _ | rr <;> rw [hr] at h
      · cases h
      · simp only [Option.map_some', Option.some.injEq, Prod.mk.injEq] at h
        obtain ⟨-, rfl⟩ := h
        exact hwf
    · -- FullyExpanded: recursion into the best child
      rw [perform_mcts_fully rng f k n hst] at h
      rcases hbc : n.bestChildE with _ | ic <;> simp only [hbc] at h
      · cases h
      · rcases hrec : Node.perform_mcts rng f k ic.2 with _ | rc <;> simp only [hrec] at h
        · cases h
        · simp only [Option.some.injEq, Prod.mk.injEq] at h
          obtain ⟨-, rfl⟩ := h
          have hget : n.children[ic.1]? = some ic.2 := bestChildE_getElem n ic.1 ic.2 hbc
          have hcmem : ic.2 ∈ n.children := bestChildE_mem n ic.1 ic.2 hbc
          have hcwf : WFNode rc.2 := ih k ic.2 rc.1 rc.2 (hwf.child ic.2 hcmem) hrec
          obtain ⟨hfu, hfb, hfa⟩ := perform_mcts_frame rng f k ic.2 rc.1 rc.2 hrec
          exact WFNode_backprop_set n ic.1 ic.2 rc.2 rc.1 hwf hget hcwf hfu hfb hfa
    · -- Expandable
      rw [perform_mcts_expandable rng f k n hst] at h
      rcases hexp : n.expand rng k with n1 | n1 | _ <;> simp only [hexp] at h
      · rcases hr : n.board.get_reward n.us with _ | rr <;> rw [hr] at h
        · cases h
        · simp only [Option.map_some', Option.some.injEq, Prod.mk.injEq] at h
          obtain ⟨-, rfl⟩ := h
          exact WFNode_expand_terminal rng k n n1 hwf hexp
      · have hwf1 : WFNode n1 := WFNode_expand_expanded rng k n n1 hwf hexp
        rcases hge : n1.children[n1.children.length - 1]? with _ | c <;> simp only [hge] at h
        · cases h
        · rcases hsim : c.simulate rng f (k + 1) with _ | rc <;> simp only [hsim] at h
          · cases h
          · simp only [Option.some.injEq, Prod.mk.injEq] at h
            obtain ⟨-, rfl⟩ := h
            have hcmem : c ∈ n1.children := by
              rcases List.getElem?_eq_some_iff.mp hge with ⟨hlt, heq⟩
              exact heq ▸ List.getElem_mem hlt
            have hcwf : WFNode rc.2 :=
              WFNode_simulate rng f (k + 1) c rc.1 rc.2 (hwf1.child c hcmem) hsim
            obtain ⟨hfu, hfb, hfa⟩ := simulate_frame rng f (k + 1) c rc.1 rc.2 hsim
            exact WFNode_backprop_set n1 (n1.children.length - 1) c rc.2 rc.1
              hwf1 hge hcwf hfu hfb hfa
      · cases h

/-- `run` preserves the tree invariant. -/
lemma WFNode_run (rng : Nat → Nat) (fuel k : Nat) (m m' : MCTS) (hwf : WFNode m.root)
    (h : MCTS.run rng fuel k m = some m') : WFNode m'.root := by
  unfold MCTS.run at h
  split at h
  · injection h with h'
    subst h'
    exact hwf
  · rcases hpm : m.root.perform_mcts rng fuel k with _ | rn <;> rw [hpm] at h
    · cases h
    · simp only [Option.map_some', Option.some.injEq] at h
      subst h
      exact WFNode_perform_mcts rng fuel k m.root rn.1 rn.2 hwf hpm

/-- `perform_action` preserves the tree invariant: the new root is one of the
old children. -/
lemma WFNode_perform_action (m m' : MCTS) (a : Int × Int) (hwf : WFNode m.root)
    (h : MCTS.perform_action m a = some m') : WFNode m'.root := by
  unfold MCTS.perform_action at h
  rcases hfi : findActionIdx m.root.children a with _ | i <;> rw [hfi] at h
  · cases h
  · simp only [Option.some_bind] at h
    rcases hge : m.root.children[i]? with _ | c <;> rw [hge] at h
    · cases h
    · simp only [Option.map_some', Option.some.injEq] at h
      subst h
      have hcmem : c ∈ m.root.children := by
        rcases List.getElem?_eq_some_iff.mp hge with ⟨hlt, heq⟩
        exact heq ▸ List.getElem_mem hlt
      exact hwf.child c hcmem

/-- Every reachable tree satisfies the invariant. -/
lemma reachable_WFNode (m : MCTS) (h : Reachable m) : WFNode m.root := by
  induction h with
  | new p fa =>
    refine Node.All.mk _ ⟨?_, ?_, ?_⟩ ?_
    · exact Board.WF_new _
    · intro hs; cases hs
    · intro c hc; cases hc
    · intro c hc; cases hc
  | run m m' rng fuel k _ heq ih => exact WFNode_run rng fuel k m m' ih heq
  | commit m m' a _ heq ih => exact WFNode_perform_action m m' a ih heq

/-- The child scan of `perform_action` succeeds and yields the first child
with the requested action, provided all children carry an action and one of
them matches. -/
lemma findActionIdx_spec : ∀ (l : List Node) (a : Int × Int),
    (∀ c ∈ l, ∃ b, c.action = some b) → (∃ c ∈ l, c.action = some a) →
    ∃ i c, findActionIdx l a = some i ∧ l[i]? = some c ∧ c.action = some a := by
  intro l
  induction l with
  | nil =>
    intro a _ hex
    rcases hex with ⟨c, hc, _⟩
    cases hc
  | cons x xs ih =>
    intro a hall hex
    obtain ⟨bx, hbx⟩ := hall x (List.mem_cons_self x xs)
    simp only [findActionIdx, hbx]
    by_cases heq : bx = a
    · subst heq
      exact ⟨0, x, by rw [if_pos rfl], List.getElem?_cons_zero, hbx⟩
    · rw [if_neg heq]
      have hex' : ∃ c ∈ xs, c.action = some a := by
        rcases hex with ⟨c, hc, hca⟩
        rcases List.mem_cons.mp hc with rfl | hmem
        · rw [hbx] at hca
          injection hca with h'
          exact absurd h' heq
        · exact ⟨c, hmem, hca⟩
      obtain ⟨i, c, h1, h2, h3⟩ :=
        ih a (fun c hc => hall c (List.mem_cons_of_mem _ hc)) hex'
      exact ⟨i + 1, c, by rw [h1]; rfl, by simpa using h2, h3⟩

/-! ### The concrete trace is reachable -/

lemma reach_m0 : Reachable m0 := Reachable.new Player.X true

lemma reach_s1 : Reachable s1 := Reachable.run m0 s1 rng0 20 0 reach_m0 rfl

lemma reach_t1 : Reachable t1 := Reachable.commit s1 t1 (0, 0) reach_s1 rfl

lemma reach_s2 : Reachable s2 := Reachable.run t1 s2 rng0 20 0 reach_t1 rfl

lemma reach_t2 : Reachable t2 := Reachable.commit s2 t2 (0, 1) reach_s2 rfl

lemma reach_s3 : Reachable s3 := Reachable.run t2 s3 rng0 20 0 reach_t2 rfl

lemma reach_t3 : Reachable t3 := Reachable.commit s3 t3 (0, 2) reach_s3 rfl

lemma reach_s4 : Reachable s4 := Reachable.run t3 s4 rng0 20 0 reach_t3 rfl

lemma reach_t4 : Reachable t4 := Reachable.commit s4 t4 (1, 0) reach_s4 rfl

lemma reach_s5 : Reachable s5 := Reachable.run t4 s5 rng0 20 0 reach_t4 rfl

lemma reach_t5 : Reachable t5 := Reachable.commit s5 t5 (1, 1) reach_s5 rfl

lemma reach_s6 : Reachable s6 := Reachable.run t5 s6 rng0 20 0 reach_t5 rfl

lemma reach_t6 : Reachable t6 := Reachable.commit s6 t6 (1, 2) reach_s6 rfl

lemma reach_s7 : Reachable s7 := Reachable.run t6 s7 rng0 20 0 reach_t6 rfl

lemma reach_t7 : Reachable t7 := Reachable.commit s7 t7 (2, 0) reach_s7 rfl

/-! ### The claims -/

/-- C1: for a node with at least one child, every child visited at least once
and the node itself visited at least once, `best_child` returns the child
maximizing the UCT value `wins/runs + sqrt(2 * ln(parentRuns) / runs)` (with
`parentRuns` the calling node's own visit count), and among several children
attaining the maximum the first in child (insertion) order is returned: all
children before the returned one score strictly less, all children score no
more. -/
theorem C1_best_child_first_max (n : Node) (hne : n.children ≠ [])
    (hruns : 1 ≤ n.runs) (hcruns : ∀ c ∈ n.children, 1 ≤ c.runs) :
    ∃ (c : Node) (l₁ l₂ : List Node), n.best_child = some c ∧
      n.children = l₁ ++ c :: l₂ ∧
      (∀ x ∈ l₁, uctValue n.runs x < uctValue n.runs c) ∧
      (∀ x ∈ n.children, uctValue n.runs x ≤ uctValue n.runs c) := by
  obtain ⟨l₁, l₂, c, heq, hl, h₁, h₂⟩ := bestChildE_spec n hne
  refine ⟨c, l₁, l₂, ?_, hl, h₁, ?_⟩
  · unfold Node.best_child
    rw [heq]
    rfl
  · intro x hx
    rw [hl] at hx
    rcases List.mem_append.mp hx with hm | hm
    · exact le_of_lt (h₁ x hm)
    · rcases List.mem_cons.mp hm with rfl | hm'
      · exact le_refl _
      · exact h₂ x hm'

/-- C1 witness: `best_child` on a concrete fully-expanded node with two
visited children. -/
theorem C1_witness :
    (wN.children ≠ [] ∧ 1 ≤ wN.runs ∧ ∀ c ∈ wN.children, 1 ≤ c.runs) ∧
    ∃ (c : Node) (l₁ l₂ : List Node), wN.best_child = some c ∧
      wN.children = l₁ ++ c :: l₂ ∧
      (∀ x ∈ l₁, uctValue wN.runs x < uctValue wN.runs c) ∧
      (∀ x ∈ wN.children, uctValue wN.runs x ≤ uctValue wN.runs c) :=
  ⟨⟨by simp [wN], by decide, by decide⟩,
    C1_best_child_first_max wN (by simp [wN]) (by decide) (by decide)⟩

/-- C2: a `perform_mcts` call that takes the `Expandable` branch with a
non-empty untried action set appends exactly one new child whose statistics
end at `runs = 1, wins = reward`, and adds that same reward with exactly one
visit to the node at the point of call (the new child's parent) — the
reward is not double-counted. -/
theorem C2_expand_simulate_counts (rng : Nat → Nat) (fuel k : Nat) (n : Node)
    (u : List (Int × Int)) (hwf : n.board.WF) (hst : n.state = NodeState.Expandable)
    (hu : removeExplored n.children n.board.get_actions = some u) (hne : u ≠ [])
    (hfuel : 10 ≤ fuel) :
    ∃ (r : Int) (n' : Node) (c : Node),
      Node.perform_mcts rng fuel k n = some (r, n') ∧
      n'.children = n.children ++ [c] ∧ c.runs = 1 ∧ c.wins = r ∧
      n'.runs = n.runs + 1 ∧ n'.wins = n.wins + r := by
  obtain ⟨r, a, hmem, heq⟩ := perform_mcts_expand_spec rng fuel k n u hwf hst hu hne hfuel
  refine ⟨r, _,
    Node.mk n.us (n.board.perform_action a) [] 1 r (some a) NodeState.Expandable,
    heq, ?_, rfl, rfl, ?_, ?_⟩
  · simp
  · simp only [Node.runs_backprop, Node.runs_setChildren]
    split <;> simp
  · simp only [Node.wins_backprop, Node.wins_setChildren]
    split <;> simp

/-- C2 witness: the first search iteration on a fresh tree. -/
theorem C2_witness :
    (m0.root.board.WF ∧ m0.root.state = NodeState.Expandable ∧
      removeExplored m0.root.children m0.root.board.get_actions =
        some m0.root.board.get_actions ∧
      m0.root.board.get_actions ≠ [] ∧ 10 ≤ 20) ∧
    ∃ (r : Int) (n' : Node) (c : Node),
      Node.perform_mcts rng0 20 0 m0.root = some (r, n') ∧
      n'.children = m0.root.children ++ [c] ∧ c.runs = 1 ∧ c.wins = r ∧
      n'.runs = m0.root.runs + 1 ∧ n'.wins = m0.root.wins + r :=
  ⟨⟨by decide, rfl, rfl, by decide, by decide⟩,
    C2_expand_simulate_counts rng0 20 0 m0.root m0.root.board.get_actions
      (by decide) rfl rfl (by decide) (by decide)⟩

/-- C3 counterexample: `t7` is reachable (through `new`, seven `run`s and
seven `perform_action`s), its root holds a terminal board in state
`Expandable` with `runs = 1`, and one further `perform_mcts` call on it
returns without increasing the root's visit count — refuting the claim that
every call increases the called node's visit count by exactly one. -/
theorem C3_counterexample :
    Reachable t7 ∧ t7.root.runs = 1 ∧
    Node.perform_mcts rng0 20 0 t7.root = some (t7r, t7n) ∧
    t7n.runs = t7.root.runs ∧ ¬t7n.runs = t7.root.runs + 1 :=
  ⟨reach_t7, rfl, rfl, rfl, by decide⟩

/-- C3 (amended): one `perform_mcts` call increases the called node's visit
count by exactly 1, except when the call returns through a terminal early
return — state `Leaf`, or state `Expandable` with a terminal board (which
sets `Leaf`) — in which case the visit count is unchanged. -/
theorem C3_amended_runs_increment (rng : Nat → Nat) (fuel k : Nat) (n : Node)
    (r : Int) (n' : Node) (h : Node.perform_mcts rng fuel k n = some (r, n')) :
    n'.runs = if n.state = NodeState.Leaf ∨
        (n.state = NodeState.Expandable ∧ n.board.get_actions = [])
      then n.runs else n.runs + 1 :=
  perform_mcts_runs rng fuel k n r n' h

/-- C3 witness: the amended statement evaluated at the reachable state `t7`. -/
theorem C3_witness :
    Node.perform_mcts rng0 20 0 t7.root = some (t7r, t7n) ∧
    t7n.runs = if t7.root.state = NodeState.Leaf ∨
        (t7.root.state = NodeState.Expandable ∧ t7.root.board.get_actions = [])
      then t7.root.runs else t7.root.runs + 1 :=
  ⟨rfl, C3_amended_runs_increment rng0 20 0 t7.root t7r t7n rfl⟩

/-- C4 counterexample: an `Expandable` node whose board still has a legal
action but whose children already represent every legal action.  The untried
set is empty, yet `expand` does not set `Leaf` and return nothing — it
panics (the `.expect("actions is empty")` call) — refuting the claim that an
empty untried set always yields `Leaf`. -/
theorem C4_counterexample :
    allTriedNode.state = NodeState.Expandable ∧
    removeExplored allTriedNode.children allTriedNode.board.get_actions = some [] ∧
    allTriedNode.board.get_actions ≠ [] ∧
    allTriedNode.expand rng0 0 = ExpandResult.panic :=
  ⟨rfl, rfl, by decide, rfl⟩

/-- C4 (amended): for an `Expandable` node, `expand` (i) sets `Leaf` and
returns nothing exactly when the board has no legal action at all; (ii)
panics when legal actions exist but every one is represented by a child;
(iii) otherwise chooses an untried action, appends one child with
`runs = 0, wins = 0`, state `Expandable`, the inherited perspective and the
successor board, and marks the parent `FullyExpanded` exactly when zero
untried actions remain after the append. -/
theorem C4_amended_expand (rng : Nat → Nat) (k : Nat) (n : Node)
    (hst : n.state = NodeState.Expandable) :
    (n.board.get_actions = [] →
      n.expand rng k = ExpandResult.terminal (n.setState NodeState.Leaf)) ∧
    (∀ u, removeExplored n.children n.board.get_actions = some u → u = [] →
      n.board.get_actions ≠ [] → n.expand rng k = ExpandResult.panic) ∧
    (∀ u, removeExplored n.children n.board.get_actions = some u → u ≠ [] →
      ∃ a ∈ u, n.expand rng k = ExpandResult.expanded
        ((if u.length = 1 then n.setState NodeState.FullyExpanded else n).setChildren
          (n.children ++
            [Node.mk n.us (n.board.perform_action a) [] 0 0 (some a)
              NodeState.Expandable])) ∧
        ((if u.length = 1 then n.setState NodeState.FullyExpanded else n).state =
          NodeState.FullyExpanded ↔ u.erase a = [])) := by
  refine ⟨expand_of_nil rng k n, ?_, ?_⟩
  · intro u hre hu hne
    subst hu
    exact expand_of_all_tried rng k n hre hne
  · intro u hre hne
    obtain ⟨a, hmem, hexp⟩ := expand_of_untried rng k n u hre hne
    refine ⟨a, hmem, hexp, ?_, ?_⟩
    · intro hfe
      by_cases h1 : u.length = 1
      · rcases List.length_eq_one.mp h1 with ⟨b, rfl⟩
        simp only [List.mem_singleton] at hmem
        subst hmem
        exact List.erase_cons_head a []
      · rw [if_neg h1] at hfe
        rw [hst] at hfe
        cases hfe
    · intro her
      have hlen1 := List.length_erase_of_mem hmem
      rw [her] at hlen1
      have hpos := List.length_pos.mpr hne
      have hlen : u.length = 1 := by
        simp only [List.length_nil] at hlen1
        omega
      rw [if_pos hlen]
      simp

/-- C4 witness: the amended statement at the fresh root (nine untried
actions). -/
theorem C4_witness :
    m0.root.state = NodeState.Expandable ∧
    ((m0.root.board.get_actions = [] →
      m0.root.expand rng0 0 = ExpandResult.terminal (m0.root.setState NodeState.Leaf)) ∧
    (∀ u, removeExplored m0.root.children m0.root.board.get_actions = some u → u = [] →
      m0.root.board.get_actions ≠ [] → m0.root.expand rng0 0 = ExpandResult.panic) ∧
    (∀ u, removeExplored m0.root.children m0.root.board.get_actions = some u → u ≠ [] →
      ∃ a ∈ u, m0.root.expand rng0 0 = ExpandResult.expanded
        ((if u.length = 1 then m0.root.setState NodeState.FullyExpanded
          else m0.root).setChildren
          (m0.root.children ++
            [Node.mk m0.root.us (m0.root.board.perform_action a) [] 0 0 (some a)
              NodeState.Expandable])) ∧
        ((if u.length = 1 then m0.root.setState NodeState.FullyExpanded
          else m0.root).state = NodeState.FullyExpanded ↔ u.erase a = []))) :=
  ⟨rfl, C4_amended_expand rng0 0 m0.root rfl⟩

/-- C5: committing an action `a` for which the root has a child replaces the
root by the first child carrying `a` — the entire stored subtree, statistics
included, becomes the new root unchanged and all siblings are discarded —
and on reachable trees that child's board is exactly the old root's board
with `a` applied. -/
theorem C5_commit_reuse (m : MCTS) (a : Int × Int) (hr : Reachable m)
    (hex : ∃ c ∈ m.root.children, c.action = some a) :
    ∃ (i : Nat) (c : Node), findActionIdx m.root.children a = some i ∧
      m.root.children[i]? = some c ∧
      MCTS.perform_action m a = some { root := c, us := m.us } ∧
      c.action = some a ∧ c.board = m.root.board.perform_action a := by
  have hwf := reachable_WFNode m hr
  obtain ⟨hbwf, hleaf, hcok⟩ := hwf.self
  have hall : ∀ c ∈ m.root.children, ∃ b, c.action = some b := by
    intro c hc
    obtain ⟨-, b, hb, -, -⟩ := hcok c hc
    exact ⟨b, hb⟩
  obtain ⟨i, c, h1, h2, h3⟩ := findActionIdx_spec m.root.children a hall hex
  refine ⟨i, c, h1, h2, ?_, h3, ?_⟩
  · unfold MCTS.perform_action
    rw [h1]
    simp only [Option.some_bind]
    rw [h2]
    rfl
  · have hcmem : c ∈ m.root.children := by
      rcases List.getElem?_eq_some_iff.mp h2 with ⟨hlt, heq⟩
      exact heq ▸ List.getElem_mem hlt
    obtain ⟨-, b, hb, -, hboard⟩ := hcok c hcmem
    rw [h3] at hb
    injection hb with hb'
    rw [hboard, ← hb']

/-- C5 witness: committing X(0,0) on the reachable state `s1`. -/
theorem C5_witness :
    (∃ c ∈ s1.root.children, c.action = some ((0 : Int), (0 : Int))) ∧
    ∃ (i : Nat) (c : Node),
      findActionIdx s1.root.children ((0 : Int), (0 : Int)) = some i ∧
      s1.root.children[i]? = some c ∧
      MCTS.perform_action s1 ((0 : Int), (0 : Int)) = some { root := c, us := s1.us } ∧
      c.action = some ((0 : Int), (0 : Int)) ∧
      c.board = s1.root.board.perform_action ((0 : Int), (0 : Int)) :=
  ⟨by decide, C5_commit_reuse s1 ((0 : Int), (0 : Int)) reach_s1 (by decide)⟩

/-- C6 counterexample: the reachable state `t7` has a root whose board is
terminal (no legal actions) while its expansion status is `Expandable`, not
`Leaf` — refuting the claimed direction "terminal implies `Leaf`" of the
iff. -/
theorem C6_counterexample :
    Reachable t7 ∧ t7.root.board.get_actions = [] ∧
    t7.root.state = NodeState.Expandable ∧ t7.root.state ≠ NodeState.Leaf :=
  ⟨reach_t7, rfl, rfl, by decide⟩

lemma wfnode_leaf_terminal : ∀ n : Node, WFNode n →
    Node.All (fun k => k.state = NodeState.Leaf → k.board.get_actions = []) n := by
  intro n hwf
  induction hwf with
  | mk n hok hkids ih => exact Node.All.mk n hok.2.1 ih

/-- C6 (amended): in every reachable tree, the forward direction holds — a
node with status `Leaf` always has a terminal board (no legal actions).  The
converse fails (see the counterexample): a terminal node keeps status
`Expandable` until `expand` is first called on it. -/
theorem C6_amended_leaf_terminal (m : MCTS) (h : Reachable m) :
    Node.All (fun n => n.state = NodeState.Leaf → n.board.get_actions = []) m.root :=
  wfnode_leaf_terminal m.root (reachable_WFNode m h)

/-- C6 witness: the amended statement at the freshly created tree. -/
theorem C6_witness :
    Node.All (fun n => n.state = NodeState.Leaf → n.board.get_actions = []) m0.root :=
  C6_amended_leaf_terminal m0 reach_m0

/-- C7: once `finished` is true, `run()` returns the tree unchanged — no
node's statistics anywhere change — and `finished` remains true, for any
random stream and fuel. -/
theorem C7_finished_noop (m : MCTS) (rng : Nat → Nat) (fuel k : Nat)
    (h : m.root.finished = true) :
    MCTS.run rng fuel k m = some m ∧ m.root.finished = true := by
  refine ⟨?_, h⟩
  unfold MCTS.run
  rw [if_pos h]

/-- C7 witness: a concrete finished tree. -/
theorem C7_witness :
    mFinished.root.finished = true ∧
    MCTS.run rng0 20 0 mFinished = some mFinished ∧
    mFinished.root.finished = true :=
  ⟨by decide, C7_finished_noop mFinished rng0 20 0 (by decide)⟩

/-- C8: `simulate` on a fresh node with a well-formed board terminates — the
rollout reaches a board with no legal actions after finitely many steps (fuel
10 suffices from any position) — and returns the terminal rollout board's
reward from the perspective player, recording it on the node without
mutating the node's own board. -/
theorem C8_simulate_terminates (rng : Nat → Nat) (fuel k : Nat) (n : Node)
    (hwf : n.board.WF) (hr : n.runs = 0) (hw : n.wins = 0) (hfuel : 9 < fuel) :
    ∃ (r : Int) (n' : Node) (b' : Board),
      n.simulate rng fuel k = some (r, n') ∧
      n'.board = n.board ∧ n'.runs = 1 ∧ n'.wins = r ∧
      b'.get_actions = [] ∧ b'.get_reward n.us = some r := by
  have hcnt : n.board.emptyCount < fuel := by
    have := n.board.emptyCount_le hwf
    omega
  obtain ⟨r, b', h1, h2, h3⟩ := simulate_spec rng fuel k n hwf hr hw hcnt
  exact ⟨r, n.setStats 1 r, b', h1, by simp, by simp, by simp, h2, h3⟩

/-- C8 witness: a rollout from the empty board. -/
theorem C8_witness :
    (m0.root.board.WF ∧ m0.root.runs = 0 ∧ m0.root.wins = 0) ∧
    ∃ (r : Int) (n' : Node) (b' : Board),
      m0.root.simulate rng0 10 0 = some (r, n') ∧
      n'.board = m0.root.board ∧ n'.runs = 1 ∧ n'.wins = r ∧
      b'.get_actions = [] ∧ b'.get_reward m0.root.us = some r :=
  ⟨⟨by decide, rfl, rfl⟩,
    C8_simulate_terminates rng0 10 0 m0.root (by decide) rfl rfl (by decide)⟩

/-- C9: `get_action` returns `none` exactly when the root has no children
(assuming, as on every reachable tree, that all children carry an action);
with at least one child it returns the originating action of the root's best
child under the UCT selection rule — an empty result, never an abort. -/
theorem C9_get_action_none_iff (m : MCTS)
    (hall : ∀ c ∈ m.root.children, c.action ≠ none) :
    (MCTS.get_action m = none ↔ m.root.children = []) ∧
    (m.root.children ≠ [] →
      ∃ c, m.root.best_child = some c ∧ MCTS.get_action m = c.action) := by
  by_cases hnil : m.root.children = []
  · constructor
    · constructor
      · intro _; exact hnil
      · intro _
        unfold MCTS.get_action Node.best_child
        rw [bestChildE_nil m.root hnil]
        rfl
    · intro hc; exact absurd hnil hc
  · obtain ⟨l₁, l₂, c, heq, hl, h₁, h₂⟩ := bestChildE_spec m.root hnil
    have hbc : m.root.best_child = some c := by
      unfold Node.best_child
      rw [heq]
      rfl
    have hcmem : c ∈ m.root.children := by rw [hl]; simp
    have hga : MCTS.get_action m = c.action := by
      unfold MCTS.get_action
      rw [hbc]
      rfl
    constructor
    · constructor
      · intro hnone
        rw [hga] at hnone
        exact absurd hnone (hall c hcmem)
      · intro hc; exact absurd hc hnil
    · intro _
      exact ⟨c, hbc, hga⟩

/-- C9 witness: `get_action` on the reachable one-child state `s1`. -/
theorem C9_witness :
    (∀ c ∈ s1.root.children, c.action ≠ none) ∧
    ((MCTS.get_action s1 = none ↔ s1.root.children = []) ∧
      (s1.root.children ≠ [] →
        ∃ c, s1.root.best_child = some c ∧ MCTS.get_action s1 = c.action)) :=
  ⟨by decide, C9_get_action_none_iff s1 (by decide)⟩

/-- C10: `get_winner` misses row index 2 (and column index 2): on the full
board whose bottom row is entirely X while no checked line is complete,
`get_winner` is `none`, `is_ended` reports the position only as used up, and
`get_reward` scores it as a draw (0) for X instead of a win. -/
theorem C10_winner_row2_missed :
    rowTwoBoard.fields.getD 2 [] =
      [some Player.X, some Player.X, some Player.X] ∧
    rowTwoBoard.get_winner = none ∧
    rowTwoBoard.is_ended = true ∧
    rowTwoBoard.get_reward Player.X = some 0 :=
  ⟨rfl, rfl, rfl, rfl⟩

end TicTacToe
